import Mathlib

/-!
Multithreaded block compression pipeline (`main.cpp`).

A shallow embedding of `compressBlock`, `decompressBlock`, `compressWorker`,
`decompressToFile` and the thread set-up of `main`.

* A `std::vector<char>` is a `List Byte`.
* zlib (`compressBound`, `compress`, `uncompress`) is an external library: it is a
  parameter `Codec` of every definition that calls it.
* The two mutexes make the read section and the `push_back` of `compressWorker`
  atomic, and `compressBlock` touches only data local to its thread.  A run of the
  thread pool is a schedule: a list of thread numbers, each entry letting that thread
  execute its next section (locked read, `compressBlock`, locked `push_back`).
* The block size is a parameter `B`; the program uses `BLOCK_SIZE`.
* Opening the files, the timing and the console messages of `main` are left out.
-/

namespace Pipeline

/-- One `char` of a buffer. -/
abbrev Byte := Fin 256

/-- The preprocessor constant `BLOCK_SIZE` (`1024 * 1024`). -/
def BLOCK_SIZE : Nat := 1024 * 1024

/-- The struct `CompressedBlock`: compressed bytes and the length of the raw block. -/
structure CompressedBlock where
  data : List Byte
  originalSize : Nat
deriving DecidableEq, Repr

/-- zlib status `Z_OK`. -/
def Z_OK : Int := 0

/-- zlib status `Z_DATA_ERROR`. -/
def Z_DATA_ERROR : Int := -3

/-- zlib status `Z_BUF_ERROR`. -/
def Z_BUF_ERROR : Int := -5

/-- The zlib entry points used by the program.  `compress dest destLen source sourceLen`
and `uncompress dest destLen source sourceLen` return the status code and the bytes
they wrote at the start of `dest`; the value they leave in `*destLen` is the number of
bytes written. -/
structure Codec where
  compressBound : Nat → Nat
  compress : List Byte → Nat → List Byte → Nat → Int × List Byte
  uncompress : List Byte → Nat → List Byte → Nat → Int × List Byte

/-- `std::vector<char>::resize(n)`: truncate, or pad with zero bytes. -/
def resize (v : List Byte) (n : Nat) : List Byte :=
  v.take n ++ List.replicate (n - v.length) 0

/-- Bytes `written` stored at offset 0 of the buffer `buf`; the buffer keeps its size. -/
def store (buf written : List Byte) : List Byte :=
  (written ++ buf.drop written.length).take buf.length

/-- The arguments `(dest, destLen, source, sourceLen)` that `compressBlock` passes to
`compress` (lines 18-23). -/
def compressArgs (z : Codec) (input : List Byte) : List Byte × Nat × List Byte × Nat :=
  let srcLen := input.length
  let destLen := z.compressBound srcLen
  let output := resize [] destLen
  (output, destLen, input, srcLen)

/-- Function `compressBlock` (lines 17-28): the returned flag and the final `output`. -/
def compressBlock (z : Codec) (input : List Byte) : Bool × List Byte :=
  let args := compressArgs z input
  let r := z.compress args.1 args.2.1 args.2.2.1 args.2.2.2
  let output := store args.1 r.2
  let destLen := r.2.length
  if r.1 ≠ Z_OK then (false, output)
  else (true, resize output destLen)

/-- Function `decompressBlock` (lines 31-38): the returned flag and the final `output`. -/
def decompressBlock (z : Codec) (input : List Byte) (originalSize : Nat) :
    Bool × List Byte :=
  let output := resize [] originalSize
  let destLen := originalSize
  let r := z.uncompress output destLen input input.length
  (decide (r.1 = Z_OK), store output r.2)

/-- The element access `v[0]` of a vector: there is an element only when `v` is not empty. -/
def elem0 (v : List Byte) : Option Byte := v.head?

/-- The access `input[0]` of `compressBlock` (line 23). -/
def compressBlockInput0 (input : List Byte) : Option Byte := elem0 input

/-- The access `output[0]` of `decompressBlock` after `output.resize(originalSize)`
(lines 32 and 35). -/
def decompressBlockOutput0 (originalSize : Nat) : Option Byte :=
  elem0 (resize [] originalSize)

/-- The input stream `inFile`: the bytes not yet extracted and the `eofbit`
(`failbit` is only ever set together with `eofbit` here). -/
structure IFStream where
  rest : List Byte
  eofbit : Bool
deriving DecidableEq, Repr

/-- Call `inFile.read(buf, n)`: the extracted bytes (their number is `gcount()`) and the
stream afterwards.  Reaching the end before `n` bytes sets `eofbit`. -/
def IFStream.read (f : IFStream) (n : Nat) : List Byte × IFStream :=
  if f.eofbit then ([], f)
  else if n ≤ f.rest.length then (f.rest.take n, { rest := f.rest.drop n, eofbit := false })
  else (f.rest, { rest := [], eofbit := true })

/-- Control point of one `compressWorker` thread. -/
inductive Worker where
  /-- At the top of `while (true)`, before the section locked by `fileMutex`. -/
  | loopTop
  /-- After the locked read: holds `block` and `bytesRead`, about to call `compressBlock`. -/
  | gotBlock (block : List Byte) (bytesRead : Nat)
  /-- After a successful `compressBlock`: about to lock `dataMutex` and `push_back`. -/
  | toSubmit (compressedBlock : List Byte) (bytesRead : Nat)
  /-- Left the loop through one of the two `break`s. -/
  | exited
deriving DecidableEq, Repr

/-- The state shared by the threads, the control points of the threads, and a history
of the blocks handed out by the locked read section, in the order they were read. -/
structure State where
  inFile : IFStream
  compressedData : List CompressedBlock
  threads : List Worker
  issued : List (List Byte)
deriving DecidableEq, Repr

/-- One atomic section of `compressWorker` (lines 43-61) for a thread at control point
`w`, with block size `B`: the new control point and the new shared state. -/
def compressWorkerStep (B : Nat) (z : Codec) (s : State) (w : Worker) : Worker × State :=
  match w with
  | .loopTop =>
      let block := resize [] B
      if s.inFile.eofbit then (.exited, s)
      else
        let r := s.inFile.read B
        let block := store block r.1
        let bytesRead := r.1.length
        if bytesRead = 0 then (.exited, { s with inFile := r.2 })
        else
          let block := resize block bytesRead
          (.gotBlock block bytesRead,
            { s with inFile := r.2, issued := s.issued ++ [block] })
  | .gotBlock block bytesRead =>
      let r := compressBlock z block
      if r.1 then (.toSubmit r.2 bytesRead, s) else (.loopTop, s)
  | .toSubmit compressedBlock bytesRead =>
      (.loopTop,
        { s with compressedData := s.compressedData ++ [⟨compressedBlock, bytesRead⟩] })
  | .exited => (.exited, s)

/-- Thread number `i` runs its next atomic section (nothing happens when there is no
such thread). -/
def step (B : Nat) (z : Codec) (s : State) (i : Nat) : State :=
  match s.threads.get? i with
  | none => s
  | some w =>
      let r := compressWorkerStep B z s w
      { r.2 with threads := r.2.threads.set i r.1 }

/-- The threads run under the schedule `sched`. -/
def run (B : Nat) (z : Codec) (sched : List Nat) (s : State) : State :=
  sched.foldl (step B z) s

/-- State of `main` after the `emplace_back` loop created `N` threads on the input `I`
(lines 86-96). -/
def start (N : Nat) (I : List Byte) : State :=
  { inFile := { rest := I, eofbit := false }
    compressedData := []
    threads := List.replicate N Worker.loopTop
    issued := [] }

/-- Every thread has left its loop: the `join` loop of `main` (line 98) returns. -/
def joined (s : State) : Bool := s.threads.all (fun w => decide (w = Worker.exited))

/-- Function `decompressToFile` (lines 65-74): the bytes written to `out`. -/
def decompressToFile (z : Codec) (compressedData : List CompressedBlock) : List Byte :=
  compressedData.foldl
    (fun out block =>
      let r := decompressBlock z block.data block.originalSize
      if r.1 then out ++ r.2 else out)
    []

/-- Conversion of an `unsigned int` to `int` (32 bits, wrapping modulo `2^32`). -/
def toInt32 (u : Nat) : Int :=
  if u % 2 ^ 32 < 2 ^ 31 then (u % 2 ^ 32 : Nat) else (u % 2 ^ 32 : Nat) - 2 ^ 32

/-- The variable `threadCount` of `main` after lines 91-92, where `h` is the value
returned by `std::thread::hardware_concurrency()`. -/
def threadCount (h : Nat) : Int :=
  let threadCount := toInt32 h
  if threadCount = 0 then 4 else threadCount

/-- Number of iterations of `for (int i = 0; i < threadCount; ++i)` (line 95) still to
run when the counter is `i`; `fuel` bounds the recursion. -/
def spawnLoop (threadCount : Int) : Nat → Int → Nat
  | 0, _ => 0
  | fuel + 1, i => if i < threadCount then 1 + spawnLoop threadCount fuel (i + 1) else 0

/-- Number of threads that `main` creates (lines 91-96). -/
def spawned (h : Nat) : Nat :=
  spawnLoop (threadCount h) (2 ^ 31) 0

/-- The pipeline of `main` (lines 86-107) with `N` threads: the bytes written to the
output file, or `none` when the schedule ends before every thread has exited. -/
def pipeline (B : Nat) (z : Codec) (N : Nat) (I : List Byte) (sched : List Nat) :
    Option (List Byte) :=
  let s := run B z sched (start N I)
  if joined s then some (decompressToFile z s.compressedData) else none

/-- Bytes `[k*B, min((k+1)*B, L))` of the input: the block with sequence index `k`. -/
def slice (B : Nat) (I : List Byte) (k : Nat) : List Byte :=
  (I.drop (k * B)).take B

/-- Number of blocks `ceil(L / B)`. -/
def numBlocks (L B : Nat) : Nat := (L + B - 1) / B

/-- A codec for concrete runs: it stores the bytes unchanged and reports
`Z_BUF_ERROR` when the destination is too small. -/
def copyCodec : Codec where
  compressBound := fun n => n + 13
  compress := fun _ destLen source sourceLen =>
    if destLen < sourceLen then (Z_BUF_ERROR, []) else (Z_OK, source)
  uncompress := fun _ destLen source sourceLen =>
    if destLen < sourceLen then (Z_BUF_ERROR, []) else (Z_OK, source)

/-- A codec for concrete runs that rejects every block starting with byte 255 and
otherwise behaves like `copyCodec`. -/
def pickyCodec : Codec where
  compressBound := fun n => n + 13
  compress := fun _ destLen source sourceLen =>
    if source.head? = some 255 then (Z_DATA_ERROR, [])
    else if destLen < sourceLen then (Z_BUF_ERROR, []) else (Z_OK, source)
  uncompress := fun _ destLen source sourceLen =>
    if destLen < sourceLen then (Z_BUF_ERROR, []) else (Z_OK, source)

/-- The aggregate entry that a thread holding `block` and `bytesRead` will push: none
when `compressBlock` fails on the block. -/
def entry (z : Codec) (block : List Byte) (bytesRead : Nat) : List CompressedBlock :=
  if (compressBlock z block).1 then [⟨(compressBlock z block).2, bytesRead⟩] else []

/-- The aggregate entry that a thread at control point `w` still has to push. -/
def inflight (z : Codec) : Worker → List CompressedBlock
  | .gotBlock block bytesRead => entry z block bytesRead
  | .toSubmit compressedBlock bytesRead => [⟨compressedBlock, bytesRead⟩]
  | _ => []

/-- The entries still to be pushed by the threads. -/
def pending (z : Codec) (threads : List Worker) : List CompressedBlock :=
  (threads.map (inflight z)).flatten

/-- The entries that the blocks read so far lead to, in reading order. -/
def due (z : Codec) (issued : List (List Byte)) : List CompressedBlock :=
  (issued.map (fun b => entry z b b.length)).flatten

/-- The bytes that `decompressToFile` writes for one aggregate entry. -/
def written (z : Codec) (block : CompressedBlock) : List Byte :=
  if (decompressBlock z block.data block.originalSize).1 then
    (decompressBlock z block.data block.originalSize).2
  else []

/-- The codec compresses every non-empty block, and `decompressBlock` with the length
of the block as `originalSize` gives the block back. -/
def RoundTrips (z : Codec) : Prop :=
  ∀ x : List Byte, x ≠ [] →
    (compressBlock z x).1 = true ∧
      decompressBlock z (compressBlock z x).2 x.length = (true, x)

/-- Number of atomic sections a thread at control point `w` runs at least before it
can exit, plus one; zero once it has exited. -/
def rank : Worker → Nat
  | .exited => 0
  | .loopTop => 1
  | .toSubmit _ _ => 2
  | .gotBlock _ _ => 3

/-- A bound on the number of atomic sections that can still run from `s`. -/
def potential (s : State) : Nat :=
  (s.threads.map rank).sum + 3 * s.inFile.rest.length

/-- What every atomic section preserves about the stream cursor, the blocks read so
far, and the data held by the threads. -/
structure ReaderInv (B : Nat) (I : List Byte) (s : State) : Prop where
  issued_eq : s.issued = (List.range s.issued.length).map (slice B I)
  rest_eq : s.inFile.rest = I.drop (s.issued.length * B)
  lt_len : ∀ k, k < s.issued.length → k * B < I.length
  eof_le : s.inFile.eofbit = true → I.length ≤ s.issued.length * B
  exited_eof : Worker.exited ∈ s.threads → s.inFile.eofbit = true
  got : ∀ b n, Worker.gotBlock b n ∈ s.threads → n = b.length ∧ 1 ≤ n
  sub : ∀ c n, Worker.toSubmit c n ∈ s.threads → 1 ≤ n
  agg : ∀ c ∈ s.compressedData, 1 ≤ c.originalSize

/-! ## Vectors and the stream -/

theorem resize_length (v : List Byte) (n : Nat) : (resize v n).length = n := by
  simp only [resize, List.length_append, List.length_take, List.length_replicate]
  omega

theorem store_length (buf written : List Byte) : (store buf written).length = buf.length := by
  simp only [store, List.length_take, List.length_append, List.length_drop]
  omega

theorem store_of_le (buf written : List Byte) (h : written.length ≤ buf.length) :
    store buf written = written ++ buf.drop written.length := by
  unfold store
  apply List.take_of_length_le
  simp only [List.length_append, List.length_drop]
  omega

theorem resize_store (B : Nat) (bytes : List Byte) (h : bytes.length ≤ B) :
    resize (store (resize [] B) bytes) bytes.length = bytes := by
  rw [store_of_le _ _ (by rw [resize_length]; exact h)]
  simp [resize]

theorem read_eq (f : IFStream) (B : Nat) (h : f.eofbit = false) :
    f.read B = (f.rest.take B, { rest := f.rest.drop B, eofbit := decide (f.rest.length < B) }) := by
  unfold IFStream.read
  rw [if_neg (by simp [h])]
  by_cases hB : B ≤ f.rest.length
  · rw [if_pos hB]
    simp [Nat.not_lt.mpr hB]
  · rw [if_neg hB]
    have h1 : f.rest.length ≤ B := by omega
    have h2 : f.rest.length < B := by omega
    simp [List.take_of_length_le h1, List.drop_of_length_le h1, h2]

/-- The locked read section in closed form. -/
theorem compressWorkerStep_loopTop (B : Nat) (z : Codec) (s : State) :
    compressWorkerStep B z s Worker.loopTop =
      if s.inFile.eofbit = true then (Worker.exited, s)
      else if s.inFile.rest.take B = [] then
        (Worker.exited,
          { s with inFile := { rest := s.inFile.rest.drop B,
                               eofbit := decide (s.inFile.rest.length < B) } })
      else
        (Worker.gotBlock (s.inFile.rest.take B) (s.inFile.rest.take B).length,
          { s with inFile := { rest := s.inFile.rest.drop B,
                               eofbit := decide (s.inFile.rest.length < B) },
                   issued := s.issued ++ [s.inFile.rest.take B] }) := by
  by_cases he : s.inFile.eofbit = true
  · simp [compressWorkerStep, he]
  · have he2 : s.inFile.eofbit = false := by simpa using he
    have hlen : (s.inFile.rest.take B).length ≤ B := by
      rw [List.length_take]; omega
    simp only [compressWorkerStep, he2, read_eq _ _ he2, resize_store B _ hlen,
      List.length_eq_zero]

theorem step_of_none {B : Nat} {z : Codec} {s : State} {i : Nat}
    (h : s.threads.get? i = none) : step B z s i = s := by
  unfold step; rw [h]

theorem step_of_some {B : Nat} {z : Codec} {s : State} {i : Nat} {w : Worker}
    (h : s.threads.get? i = some w) :
    step B z s i =
      { inFile := (compressWorkerStep B z s w).2.inFile
        compressedData := (compressWorkerStep B z s w).2.compressedData
        threads := (compressWorkerStep B z s w).2.threads.set i (compressWorkerStep B z s w).1
        issued := (compressWorkerStep B z s w).2.issued } := by
  unfold step; rw [h]

/-! ## The locked read section -/

theorem readerInv_start (B N : Nat) (I : List Byte) : ReaderInv B I (start N I) := by
  constructor <;> simp [start, List.mem_replicate]

theorem readerInv_step {B : Nat} {I : List Byte} {s : State} (z : Codec) (hB : 1 ≤ B)
    (h : ReaderInv B I s) (i : Nat) : ReaderInv B I (step B z s i) := by
  cases hget : s.threads.get? i with
  | none => rw [step_of_none hget]; exact h
  | some w =>
    have hw : w ∈ s.threads := List.get?_mem hget
    rw [step_of_some hget]
    cases w with
    | exited =>
      simp only [compressWorkerStep]
      refine ⟨h.issued_eq, h.rest_eq, h.lt_len, h.eof_le, fun _ => h.exited_eof hw, ?_, ?_, h.agg⟩
      · intro b n hm
        rcases List.mem_or_eq_of_mem_set hm with hm | hm
        · exact h.got b n hm
        · cases hm
      · intro c n hm
        rcases List.mem_or_eq_of_mem_set hm with hm | hm
        · exact h.sub c n hm
        · cases hm
    | toSubmit c n =>
      simp only [compressWorkerStep]
      refine ⟨h.issued_eq, h.rest_eq, h.lt_len, h.eof_le, ?_, ?_, ?_, ?_⟩
      · intro hm
        rcases List.mem_or_eq_of_mem_set hm with hm | hm
        · exact h.exited_eof hm
        · cases hm
      · intro b n hm
        rcases List.mem_or_eq_of_mem_set hm with hm | hm
        · exact h.got b n hm
        · cases hm
      · intro c n hm
        rcases List.mem_or_eq_of_mem_set hm with hm | hm
        · exact h.sub c n hm
        · cases hm
      · intro c hc
        rcases List.mem_append.mp hc with hc | hc
        · exact h.agg c hc
        · rw [List.mem_singleton] at hc
          subst hc
          exact h.sub _ _ hw
    | gotBlock b n =>
      simp only [compressWorkerStep]
      split
      · refine ⟨h.issued_eq, h.rest_eq, h.lt_len, h.eof_le, ?_, ?_, ?_, h.agg⟩
        · intro hm
          rcases List.mem_or_eq_of_mem_set hm with hm | hm
          · exact h.exited_eof hm
          · cases hm
        · intro b n hm
          rcases List.mem_or_eq_of_mem_set hm with hm | hm
          · exact h.got b n hm
          · cases hm
        · intro c m hm
          rcases List.mem_or_eq_of_mem_set hm with hm | hm
          · exact h.sub c m hm
          · cases hm
            exact (h.got b n hw).2
      · refine ⟨h.issued_eq, h.rest_eq, h.lt_len, h.eof_le, ?_, ?_, ?_, h.agg⟩
        · intro hm
          rcases List.mem_or_eq_of_mem_set hm with hm | hm
          · exact h.exited_eof hm
          · cases hm
        · intro b n hm
          rcases List.mem_or_eq_of_mem_set hm with hm | hm
          · exact h.got b n hm
          · cases hm
        · intro c m hm
          rcases List.mem_or_eq_of_mem_set hm with hm | hm
          · exact h.sub c m hm
          · cases hm
    | loopTop =>
      rw [compressWorkerStep_loopTop]
      have hrest := h.rest_eq
      by_cases he : s.inFile.eofbit = true
      · rw [if_pos he]
        refine ⟨h.issued_eq, h.rest_eq, h.lt_len, h.eof_le, fun _ => he, ?_, ?_, h.agg⟩
        · intro b n hm
          rcases List.mem_or_eq_of_mem_set hm with hm | hm
          · exact h.got b n hm
          · cases hm
        · intro c n hm
          rcases List.mem_or_eq_of_mem_set hm with hm | hm
          · exact h.sub c n hm
          · cases hm
      · rw [if_neg he]
        have hlenrest : s.inFile.rest.length = I.length - s.issued.length * B := by
          rw [hrest, List.length_drop]
        by_cases ht : s.inFile.rest.take B = []
        · rw [if_pos ht]
          have hnil : s.inFile.rest = [] := by
            rcases List.take_eq_nil_iff.mp ht with h0 | h0
            · omega
            · exact h0
          have hlen0 : s.inFile.rest.length = 0 := by rw [hnil]; rfl
          refine ⟨h.issued_eq, ?_, h.lt_len, ?_, ?_, ?_, ?_, h.agg⟩
          · show s.inFile.rest.drop B = _
            rw [hnil, List.drop_nil, ← hrest, hnil]
          · intro _
            show I.length ≤ s.issued.length * B
            omega
          · intro _
            show decide (s.inFile.rest.length < B) = true
            rw [hlen0]
            exact decide_eq_true hB
          · intro b n hm
            rcases List.mem_or_eq_of_mem_set hm with hm | hm
            · exact h.got b n hm
            · cases hm
          · intro c n hm
            rcases List.mem_or_eq_of_mem_set hm with hm | hm
            · exact h.sub c n hm
            · cases hm
        · rw [if_neg ht]
          have hpos : 0 < s.inFile.rest.length := by
            rcases Nat.eq_zero_or_pos s.inFile.rest.length with h0 | h0
            · exact absurd (by rw [List.length_eq_zero.mp h0]; exact List.take_nil) ht
            · exact h0
          refine ⟨?_, ?_, ?_, ?_, ?_, ?_, ?_, h.agg⟩
          · show s.issued ++ [s.inFile.rest.take B] = _
            rw [List.length_append, List.length_singleton, List.range_succ, List.map_append,
              ← h.issued_eq, hrest]
            rfl
          · show s.inFile.rest.drop B = I.drop ((s.issued ++ [s.inFile.rest.take B]).length * B)
            rw [List.length_append, List.length_singleton, hrest, List.drop_drop, Nat.add_mul,
              Nat.one_mul, Nat.add_comm]
          · intro k hk
            rw [List.length_append, List.length_singleton] at hk
            rcases Nat.lt_succ_iff_lt_or_eq.mp hk with hk | hk
            · exact h.lt_len k hk
            · subst hk; omega
          · intro he2
            show I.length ≤ (s.issued ++ [s.inFile.rest.take B]).length * B
            have he3 : s.inFile.rest.length < B := of_decide_eq_true he2
            rw [List.length_append, List.length_singleton, Nat.add_mul, Nat.one_mul]
            omega
          · intro hm
            rcases List.mem_or_eq_of_mem_set hm with hm | hm
            · exact absurd (h.exited_eof hm) he
            · cases hm
          · intro b n hm
            rcases List.mem_or_eq_of_mem_set hm with hm | hm
            · exact h.got b n hm
            · cases hm
              refine ⟨rfl, ?_⟩
              rw [List.length_take]
              omega
          · intro c n hm
            rcases List.mem_or_eq_of_mem_set hm with hm | hm
            · exact h.sub c n hm
            · cases hm

theorem readerInv_run {B : Nat} {I : List Byte} (z : Codec) (hB : 1 ≤ B) (sched : List Nat) :
    ∀ s : State, ReaderInv B I s → ReaderInv B I (run B z sched s) := by
  induction sched with
  | nil => intro s h; exact h
  | cons i rest ih => intro s h; exact ih _ (readerInv_step z hB h i)

theorem numBlocks_mul_ge (L : Nat) {B : Nat} (hB : 1 ≤ B) : L ≤ numBlocks L B * B := by
  unfold numBlocks
  have h1 := Nat.div_add_mod (L + B - 1) B
  have h2 := Nat.mod_lt (L + B - 1) hB
  rw [Nat.mul_comm] at h1
  omega

theorem le_numBlocks {L B n : Nat} (hB : 1 ≤ B) (h : ∀ k, k < n → k * B < L) :
    n ≤ numBlocks L B := by
  unfold numBlocks
  rw [Nat.le_div_iff_mul_le hB]
  cases n with
  | zero => simp
  | succ m =>
    have := h m (Nat.lt_succ_self m)
    rw [Nat.succ_mul]
    omega

theorem eq_numBlocks {L B n : Nat} (hB : 1 ≤ B) (h1 : ∀ k, k < n → k * B < L)
    (h2 : L ≤ n * B) : n = numBlocks L B := by
  apply Nat.le_antisymm (le_numBlocks hB h1)
  unfold numBlocks
  apply Nat.le_of_lt_succ
  rw [Nat.div_lt_iff_lt_mul hB, Nat.succ_mul]
  omega

theorem threads_length_step (B : Nat) (z : Codec) (s : State) (i : Nat) :
    (step B z s i).threads.length = s.threads.length := by
  cases hget : s.threads.get? i with
  | none => rw [step_of_none hget]
  | some w =>
    rw [step_of_some hget]
    cases w with
    | loopTop =>
      rw [compressWorkerStep_loopTop]
      split
      · simp
      · split <;> simp
    | gotBlock b n =>
      simp only [compressWorkerStep]
      split <;> simp
    | toSubmit c n => simp [compressWorkerStep]
    | exited => simp [compressWorkerStep]

theorem threads_length_run (B : Nat) (z : Codec) (sched : List Nat) :
    ∀ s : State, (run B z sched s).threads.length = s.threads.length := by
  induction sched with
  | nil => intro s; rfl
  | cons i rest ih => intro s; exact (ih _).trans (threads_length_step B z s i)

theorem joined_iff (s : State) : joined s = true ↔ ∀ w ∈ s.threads, w = Worker.exited := by
  simp [joined, List.all_eq_true]

/-- When every thread of a non-empty pool has exited, the blocks read are exactly the
`numBlocks` slices of the input. -/
theorem issued_of_joined {B : Nat} {I : List Byte} {s : State} (hB : 1 ≤ B)
    (h : ReaderInv B I s) (hN : 1 ≤ s.threads.length) (hj : joined s = true) :
    s.issued = (List.range (numBlocks I.length B)).map (slice B I) := by
  have hex : Worker.exited ∈ s.threads := by
    cases hT : s.threads with
    | nil => rw [hT] at hN; simp at hN
    | cons w t =>
      have := (joined_iff s).mp hj w (by rw [hT]; exact List.mem_cons_self w t)
      rw [this]
      exact List.mem_cons_self _ _
  have hn := eq_numBlocks hB h.lt_len (h.eof_le (h.exited_eof hex))
  rw [← hn]
  exact h.issued_eq

theorem flatten_slices (B : Nat) (I : List Byte) (n : Nat) :
    ((List.range n).map (slice B I)).flatten = I.take (n * B) := by
  induction n with
  | zero => simp
  | succ m ih =>
    rw [List.range_succ, List.map_append, List.flatten_append, ih, Nat.succ_mul, List.take_add]
    simp [slice]

theorem flatten_blocks {B : Nat} (hB : 1 ≤ B) (I : List Byte) :
    ((List.range (numBlocks I.length B)).map (slice B I)).flatten = I := by
  rw [flatten_slices]
  exact List.take_of_length_le (numBlocks_mul_ge I.length hB)

theorem slice_length (B : Nat) (I : List Byte) (k : Nat) :
    (slice B I k).length = min B (I.length - k * B) := by
  simp [slice]

theorem slice_ne_nil {B : Nat} (hB : 1 ≤ B) (I : List Byte) {k : Nat}
    (hk : k < numBlocks I.length B) : slice B I k ≠ [] := by
  intro h
  have h1 := congrArg List.length h
  rw [slice_length] at h1
  have h2 : k * B < I.length := by
    unfold numBlocks at hk
    have h3 : k + 1 ≤ (I.length + B - 1) / B := hk
    rw [Nat.le_div_iff_mul_le hB, Nat.succ_mul] at h3
    omega
  simp only [List.length_nil] at h1
  omega

/-! ## From the blocks read to the aggregate -/

theorem get_split {T : List Worker} {i : Nat} {w : Worker} (h : T.get? i = some w) :
    ∃ T1 T2, T = T1 ++ w :: T2 ∧ ∀ v, T.set i v = T1 ++ v :: T2 := by
  induction T generalizing i with
  | nil => simp at h
  | cons a t ih =>
    cases i with
    | zero =>
      simp only [List.get?_cons_zero, Option.some.injEq] at h
      subst h
      exact ⟨[], t, rfl, fun _ => rfl⟩
    | succ j =>
      simp only [List.get?_cons_succ] at h
      obtain ⟨T1, T2, h1, h2⟩ := ih h
      refine ⟨a :: T1, T2, by rw [h1]; rfl, fun v => ?_⟩
      rw [List.set_cons_succ, h2 v]
      rfl

theorem compressWorkerStep_threads (B : Nat) (z : Codec) (s : State) (w : Worker) :
    (compressWorkerStep B z s w).2.threads = s.threads := by
  cases w with
  | loopTop =>
    rw [compressWorkerStep_loopTop]
    split
    · rfl
    · split <;> rfl
  | gotBlock b n =>
    simp only [compressWorkerStep]
    split <;> rfl
  | toSubmit c n => rfl
  | exited => rfl

theorem pending_split (z : Codec) (T1 T2 : List Worker) (w : Worker) :
    pending z (T1 ++ w :: T2) = pending z T1 ++ (inflight z w ++ pending z T2) := by
  simp [pending]

theorem due_append (z : Codec) (bs : List (List Byte)) (b : List Byte) :
    due z (bs ++ [b]) = due z bs ++ entry z b b.length := by
  simp [due]

/-- The aggregate together with the entries still held by the threads is a
rearrangement of the entries of the blocks read so far. -/
theorem flow_step (B : Nat) (z : Codec) (s : State) (i : Nat)
    (h : (s.compressedData ++ pending z s.threads).Perm (due z s.issued)) :
    ((step B z s i).compressedData ++ pending z (step B z s i).threads).Perm
      (due z (step B z s i).issued) := by
  cases hget : s.threads.get? i with
  | none => rw [step_of_none hget]; exact h
  | some w =>
    rw [step_of_some hget]
    obtain ⟨T1, T2, hT, hset⟩ := get_split hget
    simp only [compressWorkerStep_threads, hset]
    rw [hT, pending_split] at h
    rw [pending_split]
    rw [List.perm_iff_count] at h ⊢
    intro a
    have ha := h a
    simp only [List.count_append] at ha ⊢
    cases w with
    | loopTop =>
      rw [compressWorkerStep_loopTop]
      simp only [inflight, List.count_nil] at ha
      split
      · simp only [inflight, List.count_nil]; exact ha
      · split
        · simp only [inflight, List.count_nil]; exact ha
        · simp only [inflight, due_append, List.count_append]; omega
    | gotBlock b n =>
      simp only [compressWorkerStep]
      simp only [inflight, entry] at ha
      split
      · rename_i hc
        rw [if_pos hc] at ha
        simp only [inflight]; exact ha
      · rename_i hc
        rw [if_neg hc] at ha
        simp only [inflight]; exact ha
    | toSubmit c n =>
      simp only [compressWorkerStep, inflight, List.count_append, List.count_nil]
      simp only [inflight] at ha
      omega
    | exited =>
      simp only [compressWorkerStep]; exact ha

theorem flow_run (B : Nat) (z : Codec) (sched : List Nat) :
    ∀ s : State, (s.compressedData ++ pending z s.threads).Perm (due z s.issued) →
      ((run B z sched s).compressedData ++ pending z (run B z sched s).threads).Perm
        (due z (run B z sched s).issued) := by
  induction sched with
  | nil => intro s h; exact h
  | cons i rest ih => intro s h; exact ih _ (flow_step B z s i h)

theorem pending_of_joined (z : Codec) {s : State} (hj : joined s = true) :
    pending z s.threads = [] := by
  have h := (joined_iff s).mp hj
  unfold pending
  generalize s.threads = T at h
  induction T with
  | nil => rfl
  | cons a t ih =>
    have ha := h a (List.mem_cons_self a t)
    subst ha
    rw [List.map_cons, List.flatten_cons, ih (fun w hw => h w (List.mem_cons_of_mem _ hw))]
    rfl

/-- With one thread the aggregate and the entry still held are in reading order. -/
theorem single_step (B : Nat) (z : Codec) (s : State) (i : Nat)
    (h : ∃ w, s.threads = [w] ∧ s.compressedData ++ inflight z w = due z s.issued) :
    ∃ w, (step B z s i).threads = [w] ∧
      (step B z s i).compressedData ++ inflight z w = due z (step B z s i).issued := by
  obtain ⟨w, hT, hw⟩ := h
  cases i with
  | succ j =>
    have hget : s.threads.get? (j + 1) = none := by rw [hT]; rfl
    rw [step_of_none hget]
    exact ⟨w, hT, hw⟩
  | zero =>
    have hget : s.threads.get? 0 = some w := by rw [hT]; rfl
    rw [step_of_some hget]
    simp only [compressWorkerStep_threads, hT, List.set_cons_zero]
    refine ⟨_, rfl, ?_⟩
    cases w with
    | loopTop =>
      rw [compressWorkerStep_loopTop]
      simp only [inflight, List.append_nil] at hw
      split
      · simp only [inflight, List.append_nil]; exact hw
      · split
        · simp only [inflight, List.append_nil]; exact hw
        · simp only [inflight, due_append, hw]
    | gotBlock b n =>
      simp only [compressWorkerStep]
      simp only [inflight, entry] at hw
      split
      · rename_i hc
        rw [if_pos hc] at hw
        simp only [inflight]; exact hw
      · rename_i hc
        rw [if_neg hc] at hw
        simp only [inflight]; exact hw
    | toSubmit c n =>
      simp only [compressWorkerStep, inflight, List.append_nil]
      simpa [inflight] using hw
    | exited =>
      simp only [compressWorkerStep]; exact hw

theorem single_run (B : Nat) (z : Codec) (sched : List Nat) :
    ∀ s : State,
      (∃ w, s.threads = [w] ∧ s.compressedData ++ inflight z w = due z s.issued) →
      ∃ w, (run B z sched s).threads = [w] ∧
        (run B z sched s).compressedData ++ inflight z w = due z (run B z sched s).issued := by
  induction sched with
  | nil => intro s h; exact h
  | cons i rest ih => intro s h; exact ih _ (single_step B z s i h)

/-! ## Reconstruction -/

theorem decompressToFile_foldl (z : Codec) (l : List CompressedBlock) :
    ∀ acc : List Byte,
      l.foldl (fun out block =>
          let r := decompressBlock z block.data block.originalSize
          if r.1 then out ++ r.2 else out) acc
        = acc ++ (l.map (written z)).flatten := by
  induction l with
  | nil => intro acc; simp
  | cons c t ih =>
    intro acc
    rw [List.foldl_cons, ih, List.map_cons, List.flatten_cons]
    by_cases hc : (decompressBlock z c.data c.originalSize).1 = true
    · simp [written, hc]
    · simp [written, hc]

theorem decompressToFile_eq (z : Codec) (l : List CompressedBlock) :
    decompressToFile z l = (l.map (written z)).flatten := by
  unfold decompressToFile
  rw [decompressToFile_foldl]
  rfl

theorem decompressBlock_length (z : Codec) (input : List Byte) (originalSize : Nat) :
    (decompressBlock z input originalSize).2.length = originalSize := by
  simp only [decompressBlock, store_length, resize_length]

/-! ## Every run can be completed -/

theorem run_append (B : Nat) (z : Codec) (a b : List Nat) (s : State) :
    run B z (a ++ b) s = run B z b (run B z a s) := by
  simp [run, List.foldl_append]

theorem rank_sum_split (T1 T2 : List Worker) (w : Worker) :
    ((T1 ++ w :: T2).map rank).sum = (T1.map rank).sum + (rank w + (T2.map rank).sum) := by
  simp

theorem potential_step {B : Nat} (z : Codec) (hB : 1 ≤ B) {s : State} {i : Nat} {w : Worker}
    (hget : s.threads.get? i = some w) (hw : w ≠ Worker.exited) :
    potential (step B z s i) < potential s := by
  rw [step_of_some hget]
  obtain ⟨T1, T2, hT, hset⟩ := get_split hget
  unfold potential
  simp only [compressWorkerStep_threads, hset]
  rw [hT, rank_sum_split, rank_sum_split]
  cases w with
  | exited => exact absurd rfl hw
  | toSubmit c n => simp only [compressWorkerStep, rank]; omega
  | gotBlock b n =>
    simp only [compressWorkerStep]
    split <;> simp only [rank] <;> omega
  | loopTop =>
    rw [compressWorkerStep_loopTop]
    split
    · simp only [rank]; omega
    · split
      · simp only [rank, List.length_drop]; omega
      · rename_i ht
        have hpos : 0 < s.inFile.rest.length := by
          rcases Nat.eq_zero_or_pos s.inFile.rest.length with h0 | h0
          · exact absurd (by rw [List.length_eq_zero.mp h0]; exact List.take_nil) ht
          · exact h0
        simp only [rank, List.length_drop]
        omega

/-- From every state some continuation of the schedule lets all threads exit. -/
theorem exists_completion {B : Nat} (z : Codec) (hB : 1 ≤ B) :
    ∀ (n : Nat) (s : State), potential s ≤ n → ∃ more, joined (run B z more s) = true := by
  intro n
  induction n with
  | zero =>
    intro s hs
    by_cases hj : joined s = true
    · exact ⟨[], hj⟩
    · have : ∃ w ∈ s.threads, w ≠ Worker.exited := by
        by_contra hcon
        apply hj
        rw [joined_iff]
        intro w hw
        by_contra hne
        exact hcon ⟨w, hw, hne⟩
      obtain ⟨w, hw, hne⟩ := this
      obtain ⟨i, hi⟩ := List.mem_iff_get?.mp hw
      have := potential_step z hB hi hne
      omega
  | succ m ih =>
    intro s hs
    by_cases hj : joined s = true
    · exact ⟨[], hj⟩
    · have : ∃ w ∈ s.threads, w ≠ Worker.exited := by
        by_contra hcon
        apply hj
        rw [joined_iff]
        intro w hw
        by_contra hne
        exact hcon ⟨w, hw, hne⟩
      obtain ⟨w, hw, hne⟩ := this
      obtain ⟨i, hi⟩ := List.mem_iff_get?.mp hw
      have hlt := potential_step z hB hi hne
      obtain ⟨more, hmore⟩ := ih (step B z s i) (by omega)
      exact ⟨i :: more, hmore⟩

theorem can_complete {B : Nat} (z : Codec) (hB : 1 ≤ B) (N : Nat) (I : List Byte)
    (sched : List Nat) :
    ∃ more, joined (run B z (sched ++ more) (start N I)) = true := by
  obtain ⟨more, h⟩ := exists_completion z hB _ (run B z sched (start N I)) (Nat.le_refl _)
  exact ⟨more, by rw [run_append]; exact h⟩

/-! ## Runs from the initial state -/

theorem readerInv_reach {B : Nat} (z : Codec) (hB : 1 ≤ B) (N : Nat) (I : List Byte)
    (sched : List Nat) : ReaderInv B I (run B z sched (start N I)) :=
  readerInv_run z hB sched _ (readerInv_start B N I)

theorem threads_length_reach (B : Nat) (z : Codec) (N : Nat) (I : List Byte)
    (sched : List Nat) : (run B z sched (start N I)).threads.length = N := by
  rw [threads_length_run]
  simp [start]

theorem flow_reach (B : Nat) (z : Codec) (N : Nat) (I : List Byte) (sched : List Nat) :
    ((run B z sched (start N I)).compressedData ++
        pending z (run B z sched (start N I)).threads).Perm
      (due z (run B z sched (start N I)).issued) := by
  apply flow_run
  have hp : pending z (start N I).threads = [] := by
    simp only [start, pending]
    induction N with
    | zero => rfl
    | succ m ih => rw [List.replicate_succ, List.map_cons, List.flatten_cons, ih]; rfl
  rw [hp]
  exact List.Perm.refl _

theorem issued_reach {B : Nat} (z : Codec) (hB : 1 ≤ B) {N : Nat} (hN : 1 ≤ N) (I : List Byte)
    (sched : List Nat) (hj : joined (run B z sched (start N I)) = true) :
    (run B z sched (start N I)).issued =
      (List.range (numBlocks I.length B)).map (slice B I) :=
  issued_of_joined hB (readerInv_reach z hB N I sched)
    (by rw [threads_length_reach]; exact hN) hj

theorem aggregate_reach {B : Nat} (z : Codec) (hB : 1 ≤ B) {N : Nat} (hN : 1 ≤ N)
    (I : List Byte) (sched : List Nat) (hj : joined (run B z sched (start N I)) = true) :
    (run B z sched (start N I)).compressedData.Perm
      (due z ((List.range (numBlocks I.length B)).map (slice B I))) := by
  have h := flow_reach B z N I sched
  rw [pending_of_joined z hj, List.append_nil, issued_reach z hB hN I sched hj] at h
  exact h

theorem aggregate_single {B : Nat} (z : Codec) (hB : 1 ≤ B) (I : List Byte)
    (sched : List Nat) (hj : joined (run B z sched (start 1 I)) = true) :
    (run B z sched (start 1 I)).compressedData =
      due z ((List.range (numBlocks I.length B)).map (slice B I)) := by
  obtain ⟨w, hT, hw⟩ := single_run B z sched (start 1 I) ⟨Worker.loopTop, rfl, rfl⟩
  have hex : w = Worker.exited :=
    (joined_iff _).mp hj w (by rw [hT]; exact List.mem_singleton_self w)
  subst hex
  rw [issued_reach z hB (Nat.le_refl 1) I sched hj] at hw
  simpa [inflight] using hw

/-- A read attempt on a stream with no bytes left ends the loop and issues nothing. -/
theorem read_nothing (B : Nat) (z : Codec) (s : State) (h : s.inFile.rest = []) :
    (compressWorkerStep B z s Worker.loopTop).1 = Worker.exited ∧
      (compressWorkerStep B z s Worker.loopTop).2.issued = s.issued := by
  rw [compressWorkerStep_loopTop]
  split
  · exact ⟨rfl, rfl⟩
  · rw [if_pos (by rw [h]; exact List.take_nil)]
    exact ⟨rfl, rfl⟩

theorem lengths_blocks {B : Nat} (hB : 1 ≤ B) (L : Nat) :
    (List.range (numBlocks L B)).map (fun k => min B (L - k * B)) =
      List.replicate (L / B) B ++ (if L % B = 0 then [] else [L % B]) := by
  have hdm := Nat.div_add_mod L B
  have hfull : (List.range (L / B)).map (fun k => min B (L - k * B)) =
      List.replicate (L / B) B := by
    rw [List.eq_replicate_iff]
    refine ⟨by simp, ?_⟩
    intro b hb
    obtain ⟨k, hk, rfl⟩ := List.mem_map.mp hb
    have hk2 : k + 1 ≤ L / B := List.mem_range.mp hk
    have h1 := Nat.mul_le_mul_right B hk2
    have h2 := Nat.div_mul_le_self L B
    rw [Nat.succ_mul] at h1
    omega
  have hq : ∀ k, k < L / B → k * B < L := by
    intro k hk
    have hk2 : k + 1 ≤ L / B := hk
    have h1 := Nat.mul_le_mul_right B hk2
    have h2 := Nat.div_mul_le_self L B
    rw [Nat.succ_mul] at h1
    omega
  by_cases hr : L % B = 0
  · have hn : L / B = numBlocks L B := by
      apply eq_numBlocks hB hq
      rw [Nat.mul_comm]
      omega
    rw [if_pos hr, List.append_nil, ← hn, hfull]
  · have hn : L / B + 1 = numBlocks L B := by
      apply eq_numBlocks hB
      · intro k hk
        rcases Nat.lt_succ_iff_lt_or_eq.mp hk with hk | hk
        · exact hq k hk
        · subst hk
          rw [Nat.mul_comm]
          omega
      · have := Nat.mod_lt L hB
        rw [Nat.succ_mul, Nat.mul_comm]
        omega
    rw [if_neg hr, ← hn, List.range_succ, List.map_append, hfull]
    congr 1
    simp only [List.map_cons, List.map_nil]
    have := Nat.mod_lt L hB
    rw [Nat.mul_comm (L / B) B]
    congr 1
    omega

/-! ## Entries of the aggregate -/

theorem due_eq_filter (z : Codec) (bs : List (List Byte)) :
    due z bs =
      (bs.filter (fun b => (compressBlock z b).1)).map
        (fun b => (⟨(compressBlock z b).2, b.length⟩ : CompressedBlock)) := by
  induction bs with
  | nil => rfl
  | cons b t ih =>
    have hc : due z (b :: t) = entry z b b.length ++ due z t := by simp [due]
    rw [hc, ih]
    by_cases hb : (compressBlock z b).1 = true
    · simp [entry, hb, List.filter_cons]
    · simp [entry, hb, List.filter_cons]

theorem due_all {z : Codec} {bs : List (List Byte)}
    (h : ∀ b ∈ bs, (compressBlock z b).1 = true) :
    due z bs = bs.map (fun b => (⟨(compressBlock z b).2, b.length⟩ : CompressedBlock)) := by
  rw [due_eq_filter, List.filter_eq_self.mpr h]

theorem resize_store_le (buf bytes : List Byte) (h : bytes.length ≤ buf.length) :
    resize (store buf bytes) bytes.length = bytes := by
  rw [store_of_le _ _ h]
  simp [resize]

theorem store_full (buf bytes : List Byte) (h : bytes.length = buf.length) :
    store buf bytes = bytes := by
  rw [store_of_le _ _ (Nat.le_of_eq h), h]
  simp

theorem copyCodec_compressBlock (x : List Byte) : compressBlock copyCodec x = (true, x) := by
  have h1 : ¬ (x.length + 13 < x.length) := by omega
  simp only [compressBlock, compressArgs, copyCodec, h1, if_false, ne_eq, not_true_eq_false]
  rw [resize_store_le]
  rw [resize_length]
  omega

theorem copyCodec_decompressBlock (x : List Byte) :
    decompressBlock copyCodec x x.length = (true, x) := by
  have h1 : ¬ (x.length < x.length) := by omega
  simp only [decompressBlock, copyCodec, h1, if_false, decide_True]
  rw [store_full]
  rw [resize_length]

theorem copyCodec_roundTrips : RoundTrips copyCodec := by
  intro x _
  rw [copyCodec_compressBlock]
  exact ⟨rfl, copyCodec_decompressBlock x⟩

theorem spawnLoop_eq (t : Int) :
    ∀ (fuel : Nat) (i : Int), (t - i).toNat ≤ fuel → spawnLoop t fuel i = (t - i).toNat := by
  intro fuel
  induction fuel with
  | zero =>
    intro i h
    simp only [spawnLoop]
    omega
  | succ m ih =>
    intro i h
    simp only [spawnLoop]
    split
    · rw [ih (i + 1) (by omega)]
      omega
    · omega

/-! ## The claims -/

/-- C3: sequence invariant.  For block size `B ≥ 1` and a pool of `N ≥ 1` threads under
any schedule, the blocks handed out by the locked read section are, in the order they
are read, the slices `0, 1, 2, ...` of the input (the block with sequence index `k` is
bytes `[k*B, min((k+1)*B, L))`), never more than `ceil(L/B)` of them; once all threads
have exited they are exactly the slices `0 .. ceil(L/B)-1`; after `ceil(L/B)` reads every
further read attempt ends the loop without issuing a block; and every schedule can be
continued until all threads have exited. -/
theorem C3_sequence_invariant (B N : Nat) (I : List Byte) (z : Codec) (sched : List Nat)
    (hB : 1 ≤ B) (hN : 1 ≤ N) :
    (run B z sched (start N I)).issued =
        (List.range (run B z sched (start N I)).issued.length).map (slice B I) ∧
      (run B z sched (start N I)).issued.length ≤ numBlocks I.length B ∧
      (joined (run B z sched (start N I)) = true →
        (run B z sched (start N I)).issued =
          (List.range (numBlocks I.length B)).map (slice B I)) ∧
      ((run B z sched (start N I)).issued.length = numBlocks I.length B →
        (compressWorkerStep B z (run B z sched (start N I)) Worker.loopTop).1 = Worker.exited ∧
        (compressWorkerStep B z (run B z sched (start N I)) Worker.loopTop).2.issued =
          (run B z sched (start N I)).issued) ∧
      ∃ more, joined (run B z (sched ++ more) (start N I)) = true := by
  have hinv := readerInv_reach z hB N I sched
  refine ⟨hinv.issued_eq, le_numBlocks hB hinv.lt_len,
    fun hj => issued_reach z hB hN I sched hj, ?_, can_complete z hB N I sched⟩
  intro hn
  apply read_nothing
  rw [hinv.rest_eq, hn]
  exact List.drop_of_length_le (numBlocks_mul_ge I.length hB)

/-- Instance of C3: two threads, block size 2, a three-byte input. -/
theorem C3_sequence_invariant_witness :
    (1 ≤ 2 ∧ 1 ≤ 2) ∧
      ((run 2 copyCodec [0, 1, 1, 0] (start 2 [1, 2, 3])).issued =
        (List.range (run 2 copyCodec [0, 1, 1, 0] (start 2 [1, 2, 3])).issued.length).map (slice 2 ([1, 2, 3] : List Byte)) ∧
      (run 2 copyCodec [0, 1, 1, 0] (start 2 [1, 2, 3])).issued.length ≤ numBlocks ([1, 2, 3] : List Byte).length 2 ∧
      (joined (run 2 copyCodec [0, 1, 1, 0] (start 2 [1, 2, 3])) = true →
        (run 2 copyCodec [0, 1, 1, 0] (start 2 [1, 2, 3])).issued =
          (List.range (numBlocks ([1, 2, 3] : List Byte).length 2)).map (slice 2 ([1, 2, 3] : List Byte))) ∧
      ((run 2 copyCodec [0, 1, 1, 0] (start 2 [1, 2, 3])).issued.length = numBlocks ([1, 2, 3] : List Byte).length 2 →
        (compressWorkerStep 2 copyCodec (run 2 copyCodec [0, 1, 1, 0] (start 2 [1, 2, 3])) Worker.loopTop).1 = Worker.exited ∧
        (compressWorkerStep 2 copyCodec (run 2 copyCodec [0, 1, 1, 0] (start 2 [1, 2, 3])) Worker.loopTop).2.issued =
          (run 2 copyCodec [0, 1, 1, 0] (start 2 [1, 2, 3])).issued) ∧
      ∃ more, joined (run 2 copyCodec ([0, 1, 1, 0] ++ more) (start 2 ([1, 2, 3] : List Byte))) = true) :=
  ⟨by decide, C3_sequence_invariant 2 2 [1, 2, 3] copyCodec [0, 1, 1, 0] (by decide) (by decide)⟩

/-- C4: block lengths.  For block size `B ≥ 1` and `N ≥ 1` threads some schedule lets
all threads exit; under every schedule every block read has between 1 and `B` bytes,
and a read attempt that finds no byte ends the loop and issues no block; after every
schedule that lets all threads exit the blocks read have lengths `B` (`floor(L/B)`
times) followed by `L mod B` when that is not zero, only the last one may be shorter
than `B`, `L = 0` gives no block and an empty output, `L = B` gives one block, and
`L = B+1` gives two blocks of lengths `B` and 1. -/
theorem C4_block_lengths (B N : Nat) (I : List Byte) (z : Codec) (hB : 1 ≤ B) (hN : 1 ≤ N) :
    (∃ sched, joined (run B z sched (start N I)) = true) ∧
      (∀ sched, ∀ b ∈ (run B z sched (start N I)).issued,
        1 ≤ b.length ∧ b.length ≤ B) ∧
      (∀ s : State, s.inFile.rest = [] →
        (compressWorkerStep B z s Worker.loopTop).1 = Worker.exited ∧
        (compressWorkerStep B z s Worker.loopTop).2.issued = s.issued) ∧
      ∀ sched, joined (run B z sched (start N I)) = true →
      ((run B z sched (start N I)).issued.map List.length =
        List.replicate (I.length / B) B ++
          (if I.length % B = 0 then [] else [I.length % B])) ∧
      (∀ k b, k + 1 < (run B z sched (start N I)).issued.length →
        (run B z sched (start N I)).issued[k]? = some b → b.length = B) ∧
      (I.length = 0 →
        (run B z sched (start N I)).issued = [] ∧
        decompressToFile z (run B z sched (start N I)).compressedData = []) ∧
      (I.length = B → (run B z sched (start N I)).issued.length = 1) ∧
      (I.length = B + 1 → (run B z sched (start N I)).issued.map List.length = [B, 1]) := by
  have hmem : ∀ sched k, k < (run B z sched (start N I)).issued.length →
      (run B z sched (start N I)).issued[k]? = some (slice B I k) := by
    intro sched k hk
    rw [(readerInv_reach z hB N I sched).issued_eq, List.getElem?_map,
      List.getElem?_range hk]
    rfl
  refine ⟨can_complete z hB N I [], ?_, fun s hs => read_nothing B z s hs, ?_⟩
  · intro sched b hb
    obtain ⟨k, hk⟩ := List.mem_iff_getElem?.mp hb
    have hk2 : k < (run B z sched (start N I)).issued.length := by
      by_contra hcon
      rw [List.getElem?_eq_none (Nat.not_lt.mp hcon)] at hk
      cases hk
    rw [hmem sched k hk2] at hk
    cases hk
    have := (readerInv_reach z hB N I sched).lt_len k hk2
    rw [slice_length]
    omega
  intro sched hj
  have hinv := readerInv_reach z hB N I sched
  have hiss := issued_reach z hB hN I sched hj
  have hlen : (run B z sched (start N I)).issued.map List.length =
      List.replicate (I.length / B) B ++
        (if I.length % B = 0 then [] else [I.length % B]) := by
    rw [hiss, List.map_map, ← lengths_blocks hB I.length]
    apply List.map_congr_left
    intro k _
    exact slice_length B I k
  refine ⟨hlen, ?_, ?_, ?_, ?_⟩
  · intro k b hk hb
    have hk2 : k < (run B z sched (start N I)).issued.length := by omega
    rw [hmem sched k hk2] at hb
    cases hb
    have := hinv.lt_len (k + 1) hk
    rw [Nat.succ_mul] at this
    rw [slice_length]
    omega
  · intro h0
    have hnil : (run B z sched (start N I)).issued = [] := by
      have h1 := hlen
      rw [h0] at h1
      simp only [Nat.zero_div, List.replicate_zero, Nat.zero_mod, if_true, List.append_nil,
        List.map_eq_nil_iff] at h1
      exact h1
    refine ⟨hnil, ?_⟩
    have hagg := aggregate_reach z hB hN I sched hj
    rw [← hiss, hnil] at hagg
    rw [List.Perm.eq_nil hagg]
    rfl
  · intro hL
    have h1 := congrArg List.length hlen
    rw [hL, Nat.div_self hB, Nat.mod_self] at h1
    simpa using h1
  · intro hL
    rw [hlen, hL, Nat.add_div_left 1 hB, Nat.add_mod_left]
    rcases Nat.eq_or_lt_of_le hB with h1 | h1
    · subst h1; rfl
    · rw [Nat.div_eq_of_lt h1, Nat.mod_eq_of_lt h1]
      rfl

/-- Instance of C4: two threads, block size 2, a three-byte input. -/
theorem C4_block_lengths_witness :
    (1 ≤ 2 ∧ 1 ≤ 2 ∧ joined (run 2 copyCodec [0, 1, 1, 0, 0, 1, 1, 0] (start 2 [1, 2, 3])) = true) ∧
      ((∀ sched, ∀ b ∈ (run 2 copyCodec sched (start 2 ([1, 2, 3] : List Byte))).issued,
        1 ≤ b.length ∧ b.length ≤ 2) ∧
      (∀ s : State, s.inFile.rest = [] →
        (compressWorkerStep 2 copyCodec s Worker.loopTop).1 = Worker.exited ∧
        (compressWorkerStep 2 copyCodec s Worker.loopTop).2.issued = s.issued)) ∧
      (((run 2 copyCodec [0, 1, 1, 0, 0, 1, 1, 0] (start 2 [1, 2, 3])).issued.map List.length =
        List.replicate (([1, 2, 3] : List Byte).length / 2) 2 ++
          (if ([1, 2, 3] : List Byte).length % 2 = 0 then [] else [([1, 2, 3] : List Byte).length % 2])) ∧
      (∀ k b, k + 1 < (run 2 copyCodec [0, 1, 1, 0, 0, 1, 1, 0] (start 2 [1, 2, 3])).issued.length →
        (run 2 copyCodec [0, 1, 1, 0, 0, 1, 1, 0] (start 2 [1, 2, 3])).issued[k]? = some b → b.length = 2) ∧
      (([1, 2, 3] : List Byte).length = 0 →
        (run 2 copyCodec [0, 1, 1, 0, 0, 1, 1, 0] (start 2 [1, 2, 3])).issued = [] ∧
        decompressToFile copyCodec (run 2 copyCodec [0, 1, 1, 0, 0, 1, 1, 0] (start 2 [1, 2, 3])).compressedData = []) ∧
      (([1, 2, 3] : List Byte).length = 2 → (run 2 copyCodec [0, 1, 1, 0, 0, 1, 1, 0] (start 2 [1, 2, 3])).issued.length = 1) ∧
      (([1, 2, 3] : List Byte).length = 2 + 1 → (run 2 copyCodec [0, 1, 1, 0, 0, 1, 1, 0] (start 2 [1, 2, 3])).issued.map List.length = [2, 1])) :=
  ⟨by decide,
    ⟨(C4_block_lengths 2 2 [1, 2, 3] copyCodec (by decide) (by decide)).2.1,
      (C4_block_lengths 2 2 [1, 2, 3] copyCodec (by decide) (by decide)).2.2.1⟩,
    (C4_block_lengths 2 2 [1, 2, 3] copyCodec (by decide) (by decide)).2.2.2
      [0, 1, 1, 0, 0, 1, 1, 0] (by decide)⟩

/-- C1, as stated, fails: with two threads, block size 1 and input `[1, 2]`, the
schedule in which thread 1 pushes its block before thread 0 does gives the output
`[2, 1]`, although the codec round-trips. -/
theorem C1_counterexample :
    RoundTrips copyCodec ∧
      joined (run 1 copyCodec [0, 1, 1, 1, 0, 0, 0, 1] (start 2 [1, 2])) = true ∧
      pipeline 1 copyCodec 2 [1, 2] [0, 1, 1, 1, 0, 0, 0, 1] = some [2, 1] ∧
      pipeline 1 copyCodec 2 [1, 2] [0, 1, 1, 1, 0, 0, 0, 1] ≠ some [1, 2] :=
  ⟨copyCodec_roundTrips, by decide, by decide, by decide⟩

/-- C1 (amended): round trip up to the order of submission.  For block size `B ≥ 1`,
`N ≥ 1` threads and a codec that round-trips, some schedule lets all threads exit, and
after every such schedule the byte chunks that `decompressToFile` writes, one per
aggregate entry in the order of the aggregate, are a rearrangement of the blocks of the
input; the output is their concatenation and has the length of the input; the output
is identical to the input whenever the entries were pushed in the order in which their
blocks were read, which is always so with a single thread. -/
theorem C1_round_trip_submission_order (B N : Nat) (I : List Byte) (z : Codec)
    (hB : 1 ≤ B) (hN : 1 ≤ N) (hz : RoundTrips z) :
    (∃ sched, joined (run B z sched (start N I)) = true) ∧
      ∀ sched, joined (run B z sched (start N I)) = true →
        ((run B z sched (start N I)).compressedData.map (written z)).Perm
          ((List.range (numBlocks I.length B)).map (slice B I)) ∧
        decompressToFile z (run B z sched (start N I)).compressedData =
          ((run B z sched (start N I)).compressedData.map (written z)).flatten ∧
        pipeline B z N I sched =
          some (decompressToFile z (run B z sched (start N I)).compressedData) ∧
        (decompressToFile z (run B z sched (start N I)).compressedData).length = I.length ∧
        ((run B z sched (start N I)).compressedData =
            (List.range (numBlocks I.length B)).map
              (fun k => (⟨(compressBlock z (slice B I k)).2, (slice B I k).length⟩ :
                CompressedBlock)) →
          pipeline B z N I sched = some I) ∧
        (N = 1 → pipeline B z N I sched = some I) := by
  refine ⟨can_complete z hB N I [], ?_⟩
  intro sched hj
  have hok : ∀ b ∈ (List.range (numBlocks I.length B)).map (slice B I),
      (compressBlock z b).1 = true := by
    intro b hb
    obtain ⟨k, hk, rfl⟩ := List.mem_map.mp hb
    exact (hz _ (slice_ne_nil hB I (List.mem_range.mp hk))).1
  have hwr : ((List.range (numBlocks I.length B)).map (slice B I)).map
      (fun b => written z (⟨(compressBlock z b).2, b.length⟩ : CompressedBlock)) =
      (List.range (numBlocks I.length B)).map (slice B I) := by
    conv_rhs => rw [← List.map_id ((List.range (numBlocks I.length B)).map (slice B I))]
    apply List.map_congr_left
    intro b hb
    obtain ⟨k, hk, rfl⟩ := List.mem_map.mp hb
    have h2 := (hz _ (slice_ne_nil hB I (List.mem_range.mp hk))).2
    simp only [written, h2, if_true, id]
  have hperm : ((run B z sched (start N I)).compressedData.map (written z)).Perm
      ((List.range (numBlocks I.length B)).map (slice B I)) := by
    have h := (aggregate_reach z hB hN I sched hj).map (written z)
    rw [due_all hok, List.map_map] at h
    rw [← hwr]
    exact h
  have hpipe : pipeline B z N I sched =
      some (decompressToFile z (run B z sched (start N I)).compressedData) := by
    simp only [pipeline, hj, if_true]
  have hord : (run B z sched (start N I)).compressedData =
        (List.range (numBlocks I.length B)).map
          (fun k => (⟨(compressBlock z (slice B I k)).2, (slice B I k).length⟩ :
            CompressedBlock)) →
      pipeline B z N I sched = some I := by
    intro hcd
    rw [hpipe, decompressToFile_eq, hcd, List.map_map]
    rw [List.map_map] at hwr
    exact congrArg some ((congrArg List.flatten hwr).trans (flatten_blocks hB I))
  refine ⟨hperm, decompressToFile_eq z _, hpipe, ?_, hord, ?_⟩
  · rw [decompressToFile_eq, hperm.flatten.length_eq, flatten_blocks hB]
  · intro h1
    subst h1
    apply hord
    rw [aggregate_single z hB I sched hj, due_all hok, List.map_map]
    rfl

/-- Instance of C1 (amended): the schedule of the counterexample. -/
theorem C1_round_trip_submission_order_witness :
    (1 ≤ 1 ∧ 1 ≤ 2 ∧ RoundTrips copyCodec ∧ joined (run 1 copyCodec [0, 1, 1, 1, 0, 0, 0, 1] (start 2 [1, 2])) = true) ∧
      (((run 1 copyCodec [0, 1, 1, 1, 0, 0, 0, 1] (start 2 [1, 2])).compressedData.map (written copyCodec)).Perm
          ((List.range (numBlocks ([1, 2] : List Byte).length 1)).map (slice 1 ([1, 2] : List Byte))) ∧
        decompressToFile copyCodec (run 1 copyCodec [0, 1, 1, 1, 0, 0, 0, 1] (start 2 [1, 2])).compressedData =
          ((run 1 copyCodec [0, 1, 1, 1, 0, 0, 0, 1] (start 2 [1, 2])).compressedData.map (written copyCodec)).flatten ∧
        pipeline 1 copyCodec 2 ([1, 2] : List Byte) [0, 1, 1, 1, 0, 0, 0, 1] =
          some (decompressToFile copyCodec (run 1 copyCodec [0, 1, 1, 1, 0, 0, 0, 1] (start 2 [1, 2])).compressedData) ∧
        (decompressToFile copyCodec (run 1 copyCodec [0, 1, 1, 1, 0, 0, 0, 1] (start 2 [1, 2])).compressedData).length = ([1, 2] : List Byte).length ∧
        ((run 1 copyCodec [0, 1, 1, 1, 0, 0, 0, 1] (start 2 [1, 2])).compressedData =
            (List.range (numBlocks ([1, 2] : List Byte).length 1)).map
              (fun k => (⟨(compressBlock copyCodec (slice 1 ([1, 2] : List Byte) k)).2, (slice 1 ([1, 2] : List Byte) k).length⟩ :
                CompressedBlock)) →
          pipeline 1 copyCodec 2 ([1, 2] : List Byte) [0, 1, 1, 1, 0, 0, 0, 1] = some ([1, 2] : List Byte)) ∧
        (2 = 1 → pipeline 1 copyCodec 2 ([1, 2] : List Byte) [0, 1, 1, 1, 0, 0, 0, 1] = some ([1, 2] : List Byte))) :=
  ⟨⟨by decide, by decide, copyCodec_roundTrips, by decide⟩,
    (C1_round_trip_submission_order 1 2 [1, 2] copyCodec
      (by decide) (by decide) copyCodec_roundTrips).2 [0, 1, 1, 1, 0, 0, 0, 1] (by decide)⟩

/-- C2, as stated, fails: `decompressToFile` writes the entries in the order of the
vector, so two orders of the same two results give different outputs. -/
theorem C2_counterexample :
    List.Perm ([⟨[1], 1⟩, ⟨[2], 1⟩] : List CompressedBlock) [⟨[2], 1⟩, ⟨[1], 1⟩] ∧
      decompressToFile copyCodec [⟨[1], 1⟩, ⟨[2], 1⟩] = [1, 2] ∧
      decompressToFile copyCodec [⟨[2], 1⟩, ⟨[1], 1⟩] = [2, 1] ∧
      decompressToFile copyCodec [⟨[1], 1⟩, ⟨[2], 1⟩] ≠
        decompressToFile copyCodec [⟨[2], 1⟩, ⟨[1], 1⟩] :=
  ⟨List.Perm.swap _ _ _, by decide, by decide, by decide⟩

/-- C2 (amended): the results are handed to reconstruction in the order in which they
were pushed (a push appends at the end of `compressedData`, nothing sorts it).  For two
orders of the same results the chunks written are the same up to their order, each
output is the concatenation of its chunks in the order of its vector, and the two
outputs have the same length and the same bytes up to order. -/
theorem C2_submission_order (z : Codec) (l1 l2 : List CompressedBlock) (h : l1.Perm l2) :
    (∀ (B : Nat) (s : State) (c : List Byte) (n : Nat),
        (compressWorkerStep B z s (Worker.toSubmit c n)).2.compressedData =
          s.compressedData ++ [⟨c, n⟩]) ∧
      (l1.map (written z)).Perm (l2.map (written z)) ∧
      decompressToFile z l1 = (l1.map (written z)).flatten ∧
      decompressToFile z l2 = (l2.map (written z)).flatten ∧
      (decompressToFile z l1).Perm (decompressToFile z l2) ∧
      (decompressToFile z l1).length = (decompressToFile z l2).length := by
  have hp : (decompressToFile z l1).Perm (decompressToFile z l2) := by
    rw [decompressToFile_eq, decompressToFile_eq]
    exact (h.map (written z)).flatten
  exact ⟨fun _ _ _ _ => rfl, h.map (written z), decompressToFile_eq z l1,
    decompressToFile_eq z l2, hp, hp.length_eq⟩

/-- Instance of C2 (amended): the two orders of the counterexample. -/
theorem C2_submission_order_witness :
    List.Perm ([⟨[1], 1⟩, ⟨[2], 1⟩] : List CompressedBlock) [⟨[2], 1⟩, ⟨[1], 1⟩] ∧
      (decompressToFile copyCodec [⟨[1], 1⟩, ⟨[2], 1⟩]).Perm
        (decompressToFile copyCodec [⟨[2], 1⟩, ⟨[1], 1⟩]) ∧
      (decompressToFile copyCodec [⟨[1], 1⟩, ⟨[2], 1⟩]).length =
        (decompressToFile copyCodec [⟨[2], 1⟩, ⟨[1], 1⟩]).length :=
  ⟨List.Perm.swap _ _ _,
    (C2_submission_order copyCodec [⟨[1], 1⟩, ⟨[2], 1⟩] [⟨[2], 1⟩, ⟨[1], 1⟩]
      (List.Perm.swap _ _ _)).2.2.2.2⟩

/-- C5: a compression failure is skipped.  For block size `B ≥ 1` and `N ≥ 1` threads,
if `compressBlock` fails on block `j` and succeeds on every other block, which the
codec round-trips, then some schedule lets all threads exit, and after every such
schedule the aggregate holds one entry for every block other than `j` and none for
`j`, and the output of `decompressToFile` has the length of the input minus the length
of block `j`. -/
theorem C5_compression_failure_skipped (B N : Nat) (I : List Byte) (z : Codec) (j : Nat)
    (hB : 1 ≤ B) (hN : 1 ≤ N) (hjn : j < numBlocks I.length B)
    (hfail : (compressBlock z (slice B I j)).1 = false)
    (hok : (∀ k, k < numBlocks I.length B → k ≠ j →
        (compressBlock z (slice B I k)).1 = true ∧
          decompressBlock z (compressBlock z (slice B I k)).2 (slice B I k).length =
            (true, slice B I k))) :
    (∃ sched, joined (run B z sched (start N I)) = true) ∧
      ∀ sched, joined (run B z sched (start N I)) = true →
        (run B z sched (start N I)).compressedData.Perm
          (((List.range (numBlocks I.length B)).erase j).map
            (fun k => (⟨(compressBlock z (slice B I k)).2, (slice B I k).length⟩ :
              CompressedBlock))) ∧
        pipeline B z N I sched =
          some (decompressToFile z (run B z sched (start N I)).compressedData) ∧
        (decompressToFile z (run B z sched (start N I)).compressedData).length =
          I.length - (slice B I j).length := by
  refine ⟨can_complete z hB N I [], ?_⟩
  intro sched hj
  have hfilter : ((List.range (numBlocks I.length B)).map (slice B I)).filter
        (fun b => (compressBlock z b).1) =
      ((List.range (numBlocks I.length B)).erase j).map (slice B I) := by
    rw [List.filter_map, (List.nodup_range _).erase_eq_filter j]
    congr 1
    apply List.filter_congr
    intro k hk
    by_cases hkj : k = j
    · subst hkj
      simp [hfail]
    · simp [(hok k (List.mem_range.mp hk) hkj).1, hkj]
  have hagg : (run B z sched (start N I)).compressedData.Perm
      (((List.range (numBlocks I.length B)).erase j).map
        (fun k => (⟨(compressBlock z (slice B I k)).2, (slice B I k).length⟩ :
          CompressedBlock))) := by
    have h := aggregate_reach z hB hN I sched hj
    rw [due_eq_filter, hfilter, List.map_map] at h
    exact h
  have hpipe : pipeline B z N I sched =
      some (decompressToFile z (run B z sched (start N I)).compressedData) := by
    simp only [pipeline, hj, if_true]
  refine ⟨hagg, hpipe, ?_⟩
  have hwr : (((List.range (numBlocks I.length B)).erase j).map
        (fun k => (⟨(compressBlock z (slice B I k)).2, (slice B I k).length⟩ :
          CompressedBlock))).map (written z) =
      ((List.range (numBlocks I.length B)).erase j).map (slice B I) := by
    rw [List.map_map]
    apply List.map_congr_left
    intro k hk
    have hk2 := ((List.nodup_range _).mem_erase_iff).mp hk
    have h2 := (hok k (List.mem_range.mp hk2.2) hk2.1).2
    simp only [Function.comp, written, h2, if_true]
  have hlen1 : (decompressToFile z (run B z sched (start N I)).compressedData).length =
      (((List.range (numBlocks I.length B)).erase j).map (slice B I)).flatten.length := by
    rw [decompressToFile_eq, ((hagg.map (written z)).flatten).length_eq, hwr]
  have hlen2 : I.length = (slice B I j).length +
      (((List.range (numBlocks I.length B)).erase j).map (slice B I)).flatten.length := by
    have hp := List.perm_cons_erase (List.mem_range.mpr hjn)
    have h3 := ((hp.map (slice B I)).flatten).length_eq
    rw [flatten_blocks hB, List.map_cons, List.flatten_cons, List.length_append] at h3
    exact h3
  omega

/-- Instance of C5: three one-byte blocks, the second one rejected by the codec. -/
theorem C5_compression_failure_skipped_witness :
    (1 ≤ 1 ∧ 1 ≤ 2 ∧ 1 < numBlocks ([1, 255, 3] : List Byte).length 1 ∧
      (compressBlock pickyCodec (slice 1 ([1, 255, 3] : List Byte) 1)).1 = false ∧
      (∀ k, k < numBlocks ([1, 255, 3] : List Byte).length 1 → k ≠ 1 →
        (compressBlock pickyCodec (slice 1 ([1, 255, 3] : List Byte) k)).1 = true ∧
          decompressBlock pickyCodec (compressBlock pickyCodec (slice 1 ([1, 255, 3] : List Byte) k)).2 (slice 1 ([1, 255, 3] : List Byte) k).length =
            (true, slice 1 ([1, 255, 3] : List Byte) k)) ∧
      joined (run 1 pickyCodec [0, 1, 1, 0, 0, 1, 1, 1, 0, 1] (start 2 [1, 255, 3])) = true) ∧
      ((run 1 pickyCodec [0, 1, 1, 0, 0, 1, 1, 1, 0, 1] (start 2 [1, 255, 3])).compressedData.Perm
          (((List.range (numBlocks ([1, 255, 3] : List Byte).length 1)).erase 1).map
            (fun k => (⟨(compressBlock pickyCodec (slice 1 ([1, 255, 3] : List Byte) k)).2, (slice 1 ([1, 255, 3] : List Byte) k).length⟩ :
              CompressedBlock))) ∧
        pipeline 1 pickyCodec 2 ([1, 255, 3] : List Byte) [0, 1, 1, 0, 0, 1, 1, 1, 0, 1] =
          some (decompressToFile pickyCodec (run 1 pickyCodec [0, 1, 1, 0, 0, 1, 1, 1, 0, 1] (start 2 [1, 255, 3])).compressedData) ∧
        (decompressToFile pickyCodec (run 1 pickyCodec [0, 1, 1, 0, 0, 1, 1, 1, 0, 1] (start 2 [1, 255, 3])).compressedData).length =
          ([1, 255, 3] : List Byte).length - (slice 1 ([1, 255, 3] : List Byte) 1).length) :=
  ⟨⟨by decide, by decide, by decide, by decide, by decide, by decide⟩,
    (C5_compression_failure_skipped 1 2 [1, 255, 3] pickyCodec 1
      (by decide) (by decide) (by decide) (by decide) (by decide)).2 [0, 1, 1, 0, 0, 1, 1, 1, 0, 1] (by decide)⟩

/-- C6: reconstruction skips failed blocks and continues.  `decompressToFile` writes the
concatenation, in list order, of the outputs of `decompressBlock` for the entries on
which it returns true; an entry on which it returns false adds nothing and the entries
after it are still processed; an entry on which it returns true adds exactly its output
between what is written for the entries before and after it. -/
theorem C6_reconstruction_skips_failed (z : Codec) (l : List CompressedBlock) :
    decompressToFile z l =
        ((l.filter (fun c => (decompressBlock z c.data c.originalSize).1)).map
          (fun c => (decompressBlock z c.data c.originalSize).2)).flatten ∧
      (∀ l1 c l2, l = l1 ++ c :: l2 →
        (decompressBlock z c.data c.originalSize).1 = false →
        decompressToFile z l = decompressToFile z l1 ++ decompressToFile z l2) ∧
      (∀ l1 c l2, l = l1 ++ c :: l2 →
        (decompressBlock z c.data c.originalSize).1 = true →
        decompressToFile z l =
          decompressToFile z l1 ++ (decompressBlock z c.data c.originalSize).2 ++
            decompressToFile z l2) := by
  refine ⟨?_, ?_, ?_⟩
  · rw [decompressToFile_eq]
    induction l with
    | nil => rfl
    | cons c t ih =>
      by_cases hc : (decompressBlock z c.data c.originalSize).1 = true
      · simp [written, hc, List.filter_cons, ih]
      · simp [written, hc, List.filter_cons, ih]
  · intro l1 c l2 hl hc
    subst hl
    simp [decompressToFile_eq, written, hc]
  · intro l1 c l2 hl hc
    subst hl
    simp [decompressToFile_eq, written, hc]

/-- C7: buffer contract of `compressBlock`.  For a non-empty input of length `n` the
codec is called with a destination buffer of exactly `compressBound(n)` bytes, that
number as `destLen`, and the input with its length; when the codec reports `Z_OK` and
wrote at most `compressBound(n)` bytes, `compressBlock` returns true with exactly the
bytes written as output; when the codec reports another status it returns false. -/
theorem C7_compressBlock_buffer_contract (z : Codec) (input : List Byte) (_hne : input ≠ []) :
    (compressArgs z input).1.length = z.compressBound input.length ∧
      (compressArgs z input).2.1 = z.compressBound input.length ∧
      (compressArgs z input).2.2 = (input, input.length) ∧
      ((z.compress (compressArgs z input).1 (z.compressBound input.length) input
            input.length).1 = Z_OK →
        (z.compress (compressArgs z input).1 (z.compressBound input.length) input
            input.length).2.length ≤ z.compressBound input.length →
        compressBlock z input =
          (true, (z.compress (compressArgs z input).1 (z.compressBound input.length) input
            input.length).2)) ∧
      ((z.compress (compressArgs z input).1 (z.compressBound input.length) input
            input.length).1 ≠ Z_OK →
        (compressBlock z input).1 = false) := by
  refine ⟨resize_length _ _, rfl, rfl, ?_, ?_⟩
  · intro hok hm
    have hlen : (compressArgs z input).1.length = z.compressBound input.length :=
      resize_length _ _
    unfold compressBlock
    simp only [show (compressArgs z input).2.1 = z.compressBound input.length from rfl,
      show (compressArgs z input).2.2.1 = input from rfl,
      show (compressArgs z input).2.2.2 = input.length from rfl]
    rw [if_neg (by rw [hok]; simp)]
    rw [resize_store_le _ _ (by rw [hlen]; exact hm)]
  · intro hbad
    unfold compressBlock
    simp only [show (compressArgs z input).2.1 = z.compressBound input.length from rfl,
      show (compressArgs z input).2.2.1 = input from rfl,
      show (compressArgs z input).2.2.2 = input.length from rfl]
    rw [if_pos hbad]

/-- Instance of C7: a two-byte input. -/
theorem C7_compressBlock_buffer_contract_witness :
    ([1, 2] : List Byte) ≠ [] ∧
      (compressArgs copyCodec [1, 2]).1.length = copyCodec.compressBound 2 ∧
      compressBlock copyCodec [1, 2] = (true, [1, 2]) :=
  ⟨by decide,
    (C7_compressBlock_buffer_contract copyCodec [1, 2] (by decide)).1,
    (C7_compressBlock_buffer_contract copyCodec [1, 2] (by decide)).2.2.2.1
      (by decide) (by decide)⟩

/-- C8, as stated, fails: a reported value of `2^31` does not fit the `int`
`threadCount`, which becomes negative, and the creation loop runs zero times. -/
theorem C8_counterexample :
    threadCount (2 ^ 31) = -2147483648 ∧ spawned (2 ^ 31) = 0 :=
  ⟨by decide, by decide⟩

/-- C8 (amended): default worker count.  For every reported value `h` below `2^31` (the
values that fit the `int` `threadCount`) the pool creates `h` threads when `h > 0` and 4
threads when `h = 0`, so it never creates zero threads. -/
theorem C8_default_worker_count (h : Nat) (hh : h < 2 ^ 31) :
    spawned h = (if h = 0 then 4 else h) ∧ 0 < spawned h := by
  have h1 : toInt32 h = (h : Int) := by
    unfold toInt32
    have hm : h % 2 ^ 32 = h := Nat.mod_eq_of_lt (by omega)
    rw [hm, if_pos hh]
  have h2 : threadCount h = if h = 0 then 4 else (h : Int) := by
    simp only [threadCount, h1]
    by_cases h0 : h = 0
    · simp [h0]
    · have : ¬ ((h : Int) = 0) := by omega
      simp [h0, this]
  have h3 : spawned h = (threadCount h - 0).toNat := by
    unfold spawned
    apply spawnLoop_eq
    rw [h2]
    split <;> omega
  rw [h3, h2]
  by_cases h0 : h = 0
  · simp [h0]
  · simp only [h0, if_false]
    omega

/-- Instance of C8 (amended): eight hardware threads. -/
theorem C8_default_worker_count_witness :
    8 < 2 ^ 31 ∧ spawned 8 = (if 8 = 0 then 4 else 8) ∧ 0 < spawned 8 :=
  ⟨by decide, C8_default_worker_count 8 (by decide)⟩

/-- C9: the aggregate of a single thread.  With one thread, block size `B ≥ 1` and a
codec that accepts every block, some schedule lets the thread exit, and after every
such schedule the aggregate has `ceil(L/B)` entries in stream order, the `k`-th being
the compressed form of input bytes `[k*B, min((k+1)*B, L))` paired with the length of
that slice; the `originalSize` fields sum to `L`. -/
theorem C9_single_worker_aggregate (B : Nat) (I : List Byte) (z : Codec) (hB : 1 ≤ B)
    (hz : ∀ k, k < numBlocks I.length B → (compressBlock z (slice B I k)).1 = true) :
    (∃ sched, joined (run B z sched (start 1 I)) = true) ∧
      ∀ sched, joined (run B z sched (start 1 I)) = true →
        (run B z sched (start 1 I)).compressedData =
          (List.range (numBlocks I.length B)).map
            (fun k => (⟨(compressBlock z (slice B I k)).2, (slice B I k).length⟩ :
              CompressedBlock)) ∧
        (run B z sched (start 1 I)).compressedData.length = numBlocks I.length B ∧
        (∀ k, slice B I k = (I.take (min ((k + 1) * B) I.length)).drop (k * B)) ∧
        ((run B z sched (start 1 I)).compressedData.map CompressedBlock.originalSize).sum = I.length := by
  refine ⟨can_complete z hB 1 I [], ?_⟩
  intro sched hj
  have hok : ∀ b ∈ (List.range (numBlocks I.length B)).map (slice B I),
      (compressBlock z b).1 = true := by
    intro b hb
    obtain ⟨k, hk, rfl⟩ := List.mem_map.mp hb
    exact hz k (List.mem_range.mp hk)
  have hagg : (run B z sched (start 1 I)).compressedData =
      (List.range (numBlocks I.length B)).map
        (fun k => (⟨(compressBlock z (slice B I k)).2, (slice B I k).length⟩ :
          CompressedBlock)) := by
    rw [aggregate_single z hB I sched hj, due_all hok, List.map_map]
    rfl
  refine ⟨hagg, by rw [hagg]; simp, ?_, ?_⟩
  · intro k
    unfold slice
    rw [List.drop_take, List.take_eq_take, List.length_drop, Nat.succ_mul]
    omega
  · rw [hagg, List.map_map]
    have h1 := congrArg List.length (flatten_blocks hB I)
    rw [List.length_flatten, List.map_map] at h1
    exact h1

/-- Instance of C9: block size 2 and a three-byte input. -/
theorem C9_single_worker_aggregate_witness :
    (1 ≤ 2 ∧
      (∀ k, k < numBlocks ([1, 2, 3] : List Byte).length 2 →
        (compressBlock copyCodec (slice 2 ([1, 2, 3] : List Byte) k)).1 = true) ∧
      joined (run 2 copyCodec [0, 0, 0, 0, 0, 0, 0] (start 1 [1, 2, 3])) = true) ∧
      ((run 2 copyCodec [0, 0, 0, 0, 0, 0, 0] (start 1 [1, 2, 3])).compressedData =
          (List.range (numBlocks ([1, 2, 3] : List Byte).length 2)).map
            (fun k => (⟨(compressBlock copyCodec (slice 2 ([1, 2, 3] : List Byte) k)).2, (slice 2 ([1, 2, 3] : List Byte) k).length⟩ :
              CompressedBlock)) ∧
        (run 2 copyCodec [0, 0, 0, 0, 0, 0, 0] (start 1 [1, 2, 3])).compressedData.length = numBlocks ([1, 2, 3] : List Byte).length 2 ∧
        (∀ k, slice 2 ([1, 2, 3] : List Byte) k = (([1, 2, 3] : List Byte).take (min ((k + 1) * 2) ([1, 2, 3] : List Byte).length)).drop (k * 2)) ∧
        ((run 2 copyCodec [0, 0, 0, 0, 0, 0, 0] (start 1 [1, 2, 3])).compressedData.map CompressedBlock.originalSize).sum = ([1, 2, 3] : List Byte).length) :=
  ⟨⟨by decide, by decide, by decide⟩,
    (C9_single_worker_aggregate 2 [1, 2, 3] copyCodec (by decide) (by decide)).2
      [0, 0, 0, 0, 0, 0, 0] (by decide)⟩

/-- C10: element-0 accesses are in bounds in every run.  In every state reached by the
pool (block size `B ≥ 1`), a thread about to call `compressBlock` holds a block of at
least one byte, so `input[0]` exists, and every aggregate entry has `originalSize ≥ 1`,
so `output[0]` exists after `resize(originalSize)` in `decompressBlock`; the two
accesses have no element for an empty input and for `originalSize = 0`. -/
theorem C10_element0_in_bounds (B N : Nat) (I : List Byte) (z : Codec) (sched : List Nat)
    (hB : 1 ≤ B) :
    (∀ b n, Worker.gotBlock b n ∈ (run B z sched (start N I)).threads →
        1 ≤ b.length ∧ (compressBlockInput0 b).isSome = true) ∧
      (∀ c ∈ (run B z sched (start N I)).compressedData,
        1 ≤ c.originalSize ∧ (decompressBlockOutput0 c.originalSize).isSome = true) ∧
      compressBlockInput0 [] = none ∧
      decompressBlockOutput0 0 = none := by
  have hinv := readerInv_reach z hB N I sched
  refine ⟨?_, ?_, rfl, rfl⟩
  · intro b n hb
    have h1 := hinv.got b n hb
    have h2 : 1 ≤ b.length := by omega
    refine ⟨h2, ?_⟩
    cases b with
    | nil => simp at h2
    | cons a t => rfl
  · intro c hc
    have h1 := hinv.agg c hc
    refine ⟨h1, ?_⟩
    unfold decompressBlockOutput0 elem0 resize
    cases hsz : c.originalSize with
    | zero => omega
    | succ m => rfl

/-- Instance of C10: two threads, one entry pushed and one block still held. -/
theorem C10_element0_in_bounds_witness :
    1 ≤ 2 ∧
      ((∀ b n, Worker.gotBlock b n ∈ (run 2 copyCodec [0, 1, 1, 0, 0] (start 2 [1, 2, 3])).threads →
        1 ≤ b.length ∧ (compressBlockInput0 b).isSome = true) ∧
      (∀ c ∈ (run 2 copyCodec [0, 1, 1, 0, 0] (start 2 [1, 2, 3])).compressedData,
        1 ≤ c.originalSize ∧ (decompressBlockOutput0 c.originalSize).isSome = true) ∧
      compressBlockInput0 [] = none ∧
      decompressBlockOutput0 0 = none) :=
  ⟨by decide, C10_element0_in_bounds 2 2 [1, 2, 3] copyCodec [0, 1, 1, 0, 0] (by decide)⟩

end Pipeline
